import Mathlib

/-!
# Verification of the pingmeter probe-and-export pipeline

Shallow embedding of `src/main.go` (package `main` of yosisa/pingmeter):
the metrics sink (`metrics.update`), the hot-reloading target list
(`targetList.read`), and the probe batch runner / result correlator
(`ping` with the fastping `OnRecv` callback), together with theorems
settling the specification claims about them.

Modelling conventions:
* `time.Duration` is an `Int` of nanoseconds, `time.Time` an `Int`
  (a point on a total order; Go's `Time.After` is strict `>`).
* Prometheus counters are `Nat`-valued and gauges `ℚ`-valued functions of
  the `host` label (`WithLabelValues(host)` creates a zeroed child on
  first use, so a total function initialised to zero is exact);
  `rtt.Seconds() * 1000` is the exact rational `rtt / 10^6`.
* The Go map `map[string]*result` is an association list with unique keys:
  assignment replaces the entry in place when the key is present and
  appends otherwise, which reproduces Go map semantics up to iteration
  order (immaterial here: entries of one batch carry pairwise distinct
  host labels, and counter increments commute).
* File-system effects (`os.Stat`, `ioutil.ReadFile`) and the transport
  (`ResolveIPAddr`, delivered replies, the error of `p.Run()`) are inputs
  of the embedded functions.
-/

namespace Pingmeter

/-- `time.Duration`: nanoseconds. -/
abbrev Duration := Int

/-- `time.Time`, ordered by `Time.After` (strict). The zero value is `0`. -/
abbrev Time := Int

/-- `rtt.Seconds() * 1000`: the duration in milliseconds, exactly. -/
def durToMs (d : Duration) : ℚ := (d : ℚ) / 1000000

/-- The four metric vectors of `type metrics`, read off by `host` label.
`total` is `pingmeter_count_total`, `ok` is `pingmeter_count_ok`,
`ng` is `pingmeter_count_ng`, `rtt` is the gauge `pingmeter_rtt_ms`. -/
structure Metrics where
  total : String → Nat
  ok : String → Nat
  ng : String → Nat
  rtt : String → ℚ

/-- `newMetrics()`: all counters and gauges start at zero. -/
def newMetrics : Metrics :=
  ⟨fun _ => 0, fun _ => 0, fun _ => 0, fun _ => 0⟩

/-- `(*metrics).update(host, ok, rtt)` from src/main.go lines 70-79:
always increment `total`; on success increment `ok` and set the gauge to
the RTT in milliseconds; on failure increment `ng` and set the gauge to 0. -/
def Metrics.update (m : Metrics) (host : String) (okFlag : Bool) (rtt : Duration) :
    Metrics :=
  let m1 : Metrics :=
    { m with total := fun h => if h = host then m.total h + 1 else m.total h }
  if okFlag then
    { m1 with
        ok := fun h => if h = host then m1.ok h + 1 else m1.ok h,
        rtt := fun h => if h = host then durToMs rtt else m1.rtt h }
  else
    { m1 with
        ng := fun h => if h = host then m1.ng h + 1 else m1.ng h,
        rtt := fun h => if h = host then 0 else m1.rtt h }

/-- A sequence of `update` calls, applied in order: every mutation of the
metrics store in the program goes through `Metrics.update`, so a process
lifetime is a list of `(host, ok, rtt)` events. -/
def applyUpdates (events : List (String × Bool × Duration)) (m : Metrics) : Metrics :=
  events.foldl (fun m e => m.update e.1 e.2.1 e.2.2) m

theorem update_self (m : Metrics) (host : String) (okFlag : Bool) (rtt : Duration) :
    (m.update host okFlag rtt).total host = m.total host + 1 ∧
    (m.update host okFlag rtt).ok host = m.ok host + (if okFlag then 1 else 0) ∧
    (m.update host okFlag rtt).ng host = m.ng host + (if okFlag then 0 else 1) ∧
    (m.update host okFlag rtt).rtt host = (if okFlag then durToMs rtt else 0) := by
  cases okFlag <;> simp [Metrics.update]

theorem update_other (m : Metrics) (host : String) (okFlag : Bool) (rtt : Duration)
    (label : String) (h : label ≠ host) :
    (m.update host okFlag rtt).total label = m.total label ∧
    (m.update host okFlag rtt).ok label = m.ok label ∧
    (m.update host okFlag rtt).ng label = m.ng label ∧
    (m.update host okFlag rtt).rtt label = m.rtt label := by
  cases okFlag <;> simp [Metrics.update, h]

theorem update_mono (m : Metrics) (host : String) (okFlag : Bool) (rtt : Duration)
    (label : String) :
    m.total label ≤ (m.update host okFlag rtt).total label ∧
    m.ok label ≤ (m.update host okFlag rtt).ok label ∧
    m.ng label ≤ (m.update host okFlag rtt).ng label := by
  cases okFlag <;> simp [Metrics.update] <;> split <;> omega

theorem applyUpdates_mono (events : List (String × Bool × Duration)) (m : Metrics)
    (label : String) :
    m.total label ≤ (applyUpdates events m).total label ∧
    m.ok label ≤ (applyUpdates events m).ok label ∧
    m.ng label ≤ (applyUpdates events m).ng label := by
  induction events generalizing m with
  | nil => exact ⟨le_refl _, le_refl _, le_refl _⟩
  | cons e rest ih =>
    have h1 := update_mono m e.1 e.2.1 e.2.2 label
    have h2 := ih (m.update e.1 e.2.1 e.2.2)
    exact ⟨le_trans h1.1 h2.1, le_trans h1.2.1 h2.2.1, le_trans h1.2.2 h2.2.2⟩

theorem update_preserves_sum (m : Metrics) (host : String) (okFlag : Bool)
    (rtt : Duration) (label : String)
    (h : m.total label = m.ok label + m.ng label) :
    (m.update host okFlag rtt).total label =
      (m.update host okFlag rtt).ok label + (m.update host okFlag rtt).ng label := by
  cases okFlag <;> simp [Metrics.update] <;> split <;> simp [h] <;> omega

theorem applyUpdates_preserves_sum (events : List (String × Bool × Duration))
    (m : Metrics) (label : String)
    (h : m.total label = m.ok label + m.ng label) :
    (applyUpdates events m).total label =
      (applyUpdates events m).ok label + (applyUpdates events m).ng label := by
  induction events generalizing m with
  | nil => exact h
  | cons e rest ih =>
    exact ih _ (update_preserves_sum m e.1 e.2.1 e.2.2 label h)

/-- C4: every `metrics.update` call increments `total` for the host label;
with `ok = true` it also increments the success counter and sets the RTT
gauge to the round-trip time in milliseconds, and with `ok = false` it
increments the failure counter and sets the gauge to zero — in particular
a failed attempt overwrites any nonzero gauge a prior success left. -/
theorem metrics_update_effect (m : Metrics) (host : String) (okFlag : Bool)
    (rtt : Duration) :
    (m.update host okFlag rtt).total host = m.total host + 1 ∧
    (m.update host okFlag rtt).ok host = m.ok host + (if okFlag then 1 else 0) ∧
    (m.update host okFlag rtt).ng host = m.ng host + (if okFlag then 0 else 1) ∧
    (m.update host okFlag rtt).rtt host = (if okFlag then durToMs rtt else 0) :=
  update_self m host okFlag rtt

/-- C9: the three counters of any host label never decrease: over any
sequence of `metrics.update` events (the only operation of the program
that touches them) each counter is non-decreasing. -/
theorem counters_monotone (events : List (String × Bool × Duration)) (m : Metrics)
    (label : String) :
    m.total label ≤ (applyUpdates events m).total label ∧
    m.ok label ≤ (applyUpdates events m).ok label ∧
    m.ng label ≤ (applyUpdates events m).ng label :=
  applyUpdates_mono events m label

/-- C10: at every point of the process lifetime — that is, after any
sequence of `metrics.update` events starting from the zeroed registry of
`newMetrics()` — the total counter of each host label equals the sum of
its success and failure counters, since each update increments `total`
and exactly one of `ok`/`ng`. -/
theorem total_eq_ok_plus_ng (events : List (String × Bool × Duration))
    (label : String) :
    (applyUpdates events newMetrics).total label =
      (applyUpdates events newMetrics).ok label +
        (applyUpdates events newMetrics).ng label :=
  applyUpdates_preserves_sum events newMetrics label rfl

/-! ## Target list (`type targetList`, `(*targetList).read`)

`t.items` is a Go slice. Because `read` reslices with `t.items = t.items[:0]`
and then appends, the backing array is shared with any previously obtained
value of `t.items`. We therefore model the store of backing arrays
explicitly: a `Heap` maps array identifiers to their contents, and a
`GoSlice` is an array identifier plus a length (all slices here start at
offset 0 of their array, as in the program). `append` writes in place
while the new length fits the array and reallocates to a fresh array
otherwise — in which case the elements appended before the reallocation
point have already overwritten the old array's prefix. -/

/-- A Go slice at offset 0: backing-array identifier and length. -/
structure GoSlice where
  arr : Nat
  len : Nat
  deriving DecidableEq

/-- The store of backing arrays. `arrays i` is the contents of array `i`
(its length is the array's capacity); `next` is the next fresh identifier. -/
structure Heap where
  arrays : Nat → List String
  next : Nat

/-- The elements a slice value denotes. -/
def sliceContents (hp : Heap) (s : GoSlice) : List String :=
  (hp.arrays s.arr).take s.len

/-- `type targetList`: the items slice and the recorded modification time.
The file path is a constructor argument of the embedding's `read`, not state. -/
structure TargetList where
  items : GoSlice
  mtime : Time

/-- `bytes.Split(b, []byte{'\n'})`: split on newline, keeping empty pieces
(splitting the empty input yields one empty piece). -/
def splitLines : List Char → List (List Char)
  | [] => [[]]
  | c :: rest =>
    match splitLines rest with
    | [] => [[]]
    | l :: ls => if c = '\n' then [] :: l :: ls else (c :: l) :: ls

/-- The parse loop of `read`: keep the nonempty lines, in order, as strings. -/
def parseTargets (b : List Char) : List String :=
  ((splitLines b).filter (fun l => l.length > 0)).map (fun l => String.mk l)

/-- `(*targetList).read()` from src/main.go lines 93-117.
`stat` is the outcome of `os.Stat` (`none` = error, `some mt` = the file's
modification time) and `readRes` the outcome of `ioutil.ReadFile`
(`none` = error, `some b` = the file's bytes). On a successful read the
program truncates the items slice in place (`t.items = t.items[:0]`) and
appends each nonempty line: if the parsed list fits the old capacity the
old backing array keeps its identity and its prefix is overwritten;
otherwise `append` reallocates, having first overwritten as much of the
old array as fits, and the slice ends on a fresh array. -/
def tlRead (hp : Heap) (t : TargetList) (stat : Option Time)
    (readRes : Option (List Char)) : Heap × TargetList :=
  match stat with
  | none => (hp, t)
  | some mtime =>
    if mtime ≤ t.mtime then (hp, t)
    else
      let t1 : TargetList := { t with mtime := mtime }
      match readRes with
      | none => (hp, t1)
      | some b =>
        let newItems := parseTargets b
        let old := hp.arrays t.items.arr
        if newItems.length ≤ old.length then
          ({ hp with arrays := fun i =>
               if i = t.items.arr then newItems ++ old.drop newItems.length
               else hp.arrays i },
           { t1 with items := ⟨t.items.arr, newItems.length⟩ })
        else
          ({ arrays := fun i =>
               if i = hp.next then newItems
               else if i = t.items.arr then newItems.take old.length
               else hp.arrays i,
             next := hp.next + 1 },
           { t1 with items := ⟨hp.next, newItems.length⟩ })

/-- Fresh-process state: `&targetList{path: path}` has a nil items slice
(array 0 of the empty heap is empty, giving capacity 0) and the zero time. -/
def heap0 : Heap := ⟨fun _ => [], 1⟩

def tl0 : TargetList := ⟨⟨0, 0⟩, 0⟩

theorem tlRead_stat_none (hp : Heap) (t : TargetList) (r : Option (List Char)) :
    tlRead hp t none r = (hp, t) := rfl

theorem tlRead_stale (hp : Heap) (t : TargetList) (mt : Time)
    (r : Option (List Char)) (h : mt ≤ t.mtime) :
    tlRead hp t (some mt) r = (hp, t) := by
  simp [tlRead, h]

theorem tlRead_mtime_ge (hp : Heap) (t : TargetList) (mt : Time)
    (r : Option (List Char)) :
    mt ≤ (tlRead hp t (some mt) r).2.mtime := by
  by_cases h : mt ≤ t.mtime
  · rw [tlRead_stale hp t mt r h]; exact h
  · cases r with
    | none => simp [tlRead, h]
    | some b =>
      simp only [tlRead, if_neg h]
      split <;> simp

/-- C8: if the file's modification time is the same at two consecutive
`read` invocations, the second invocation is the identity on the heap and
the stored state, whatever the read results were — and an invocation whose
stat fails is the identity as well. The two calls therefore expose
bit-identical target sequences. -/
theorem unchanged_mtime_idempotent (hp : Heap) (t : TargetList) (mt : Time)
    (r1 r2 r3 : Option (List Char)) :
    tlRead (tlRead hp t (some mt) r1).1 (tlRead hp t (some mt) r1).2
        (some mt) r2 = tlRead hp t (some mt) r1 ∧
    tlRead hp t none r3 = (hp, t) := by
  exact ⟨tlRead_stale _ _ _ _ (tlRead_mtime_ge hp t mt r1), rfl⟩

/-- C2 counterexample: from the fresh state (recorded time 0), a stat
reporting modification time 5 followed by a failing read leaves the items
untouched but records time 5: the recorded modification time is *not*
left unchanged, contrary to the claim. -/
theorem read_failure_mtime_changed_cex :
    (tlRead heap0 tl0 (some 5) none).2.items = tl0.items ∧
    (tlRead heap0 tl0 (some 5) none).2.mtime = 5 ∧
    (tlRead heap0 tl0 (some 5) none).2.mtime ≠ tl0.mtime := by
  decide

/-- C2 (amended): if the stat succeeds with a strictly newer modification
time and the subsequent read fails, the stored target sequence is left
unchanged but the recorded modification time *is* advanced to the new
time (`t.mtime = mtime` runs before `ReadFile`), so a later invocation
seeing the same file time takes the cheap no-op path and does not retry
the read even though it would now succeed. -/
theorem read_failure_advances_mtime_keeps_items (hp : Heap) (t : TargetList)
    (mt : Time) (hlt : t.mtime < mt) :
    tlRead hp t (some mt) none = (hp, { t with mtime := mt }) ∧
    (∀ b : List Char,
      tlRead hp { t with mtime := mt } (some mt) (some b) =
        (hp, { t with mtime := mt })) := by
  constructor
  · simp [tlRead, not_le.mpr hlt]
  · intro b; exact tlRead_stale _ _ _ _ (le_refl mt)

theorem read_failure_advances_mtime_keeps_items_witness :
    tlRead heap0 tl0 (some 5) none = (heap0, { tl0 with mtime := 5 }) ∧
    (∀ b : List Char,
      tlRead heap0 { tl0 with mtime := 5 } (some 5) (some b) =
        (heap0, { tl0 with mtime := 5 })) :=
  read_failure_advances_mtime_keeps_items heap0 tl0 5 (by decide)

/-- A state whose items slice is `["a", "b"]` sitting in array 0. -/
def heapAB : Heap := ⟨fun i => if i = 0 then ["a", "b"] else [], 1⟩

def tlAB : TargetList := ⟨⟨0, 2⟩, 0⟩

/-- C5 counterexample: with the stored sequence reading `["a", "b"]`, a
successful reload whose file now holds the single line `c` overwrites the
shared backing array, and the sequence value obtained *before* the reload
now reads `["c", "b"]`: its contents were changed by the reload. -/
theorem reload_mutates_alias_cex :
    sliceContents heapAB tlAB.items = ["a", "b"] ∧
    sliceContents (tlRead heapAB tlAB (some 1) (some ['c'])).1 tlAB.items
      = ["c", "b"] ∧
    sliceContents (tlRead heapAB tlAB (some 1) (some ['c'])).1 tlAB.items
      ≠ ["a", "b"] := by
  decide

/-- C5 (amended): on a successful reload the stored sequence is replaced
wholesale as a slice value — afterwards it denotes exactly the newly
parsed list — but the previous sequence's backing array is reused
(`t.items = t.items[:0]` followed by appends): whenever the new list fits
the old capacity the slice keeps its array identity and the array's
prefix is overwritten in place, so a previously obtained sequence value
can observe changed contents. -/
theorem reload_reuses_backing_array (hp : Heap) (t : TargetList) (mt : Time)
    (b : List Char) (hlt : t.mtime < mt)
    (hfit : (parseTargets b).length ≤ (hp.arrays t.items.arr).length) :
    (tlRead hp t (some mt) (some b)).2.items.arr = t.items.arr ∧
    sliceContents (tlRead hp t (some mt) (some b)).1
        (tlRead hp t (some mt) (some b)).2.items = parseTargets b ∧
    (tlRead hp t (some mt) (some b)).1.arrays t.items.arr =
      parseTargets b ++ (hp.arrays t.items.arr).drop (parseTargets b).length := by
  have h1 : ¬ mt ≤ t.mtime := not_le.mpr hlt
  refine ⟨?_, ?_, ?_⟩ <;>
    simp [tlRead, if_neg h1, if_pos hfit, sliceContents, List.take_left]

theorem reload_reuses_backing_array_witness :
    (tlRead heapAB tlAB (some 1) (some ['c'])).2.items.arr = tlAB.items.arr ∧
    sliceContents (tlRead heapAB tlAB (some 1) (some ['c'])).1
        (tlRead heapAB tlAB (some 1) (some ['c'])).2.items = parseTargets ['c'] ∧
    (tlRead heapAB tlAB (some 1) (some ['c'])).1.arrays tlAB.items.arr =
      parseTargets ['c'] ++ (heapAB.arrays tlAB.items.arr).drop
        (parseTargets ['c']).length :=
  reload_reuses_backing_array heapAB tlAB 1 ['c'] (by decide) (by decide)

/-! ## Probe batch runner and result correlator (`ping`, src/main.go 129-153)

`ping(hosts)` builds `results : map[string]*result`, registers every host
under the key `ra.String()` — note that `results[ra.String()] = &result{host}`
runs *before* the error check, and a nil `*net.IPAddr` stringifies to
`"<nil>"`, so every host that fails to resolve is keyed `"<nil>"` — adds
only the successfully resolved addresses to the pinger, installs the
`OnRecv` callback, and finally runs the pinger; a deferred loop then calls
`pingMetrics.update` once per entry of the map, *whether or not* `p.Run()`
returned an error (the `defer` fires on every return path, and `pingLoop`
discards the returned error).

Resolution is modelled as a function `String → Option String` (host to
`ra.String()`, `none` on error), the transport's deliveries as the list of
`(address, rtt)` pairs handed to `OnRecv` before the deadline, and the
outcome of `p.Run()` as a boolean `runError` input. -/

/-- `type result`: original host, success flag (zero value `false`), and
round-trip time (zero value `0`). -/
structure PendingResult where
  host : String
  ok : Bool
  rtt : Duration
  deriving DecidableEq

/-- The correlator `results : map[string]*result`, as an association list
with unique keys (assignment replaces in place, insertion appends). -/
abbrev ResultsMap := List (String × PendingResult)

/-- Go map assignment `results[k] = v`. -/
def upsert (rm : ResultsMap) (k : String) (v : PendingResult) : ResultsMap :=
  if rm.any (fun e => e.1 = k) then
    rm.map (fun e => if e.1 = k then (k, v) else e)
  else rm ++ [(k, v)]

/-- `(*net.IPAddr)(nil).String()`: the key under which every host whose
resolution failed is registered. -/
def nilAddr : String := "<nil>"

/-- The map key a host ends up under: its resolved address string, or
`"<nil>"` when `ResolveIPAddr` fails. -/
def keyOf (resolve : String → Option String) (host : String) : String :=
  (resolve host).getD nilAddr

/-- The `OnRecv` callback: if the reply's address is a key of the map, set
that entry's success flag and RTT; otherwise do nothing. (The map's keys
are pairwise distinct, so updating every matching entry is exactly the
Go lookup-and-mutate.) -/
def markSuccess (rm : ResultsMap) (addr : String) (rtt : Duration) : ResultsMap :=
  rm.map (fun e => if e.1 = addr then (e.1, { e.2 with ok := true, rtt := rtt }) else e)

/-- Whether some delivered reply carries the given address. -/
def replied (replies : List (String × Duration)) (k : String) : Bool :=
  replies.any (fun r => r.1 = k)

/-- The registration loop of `ping`: for each host in order, write
`&result{host: host}` under its key and, on resolution success only,
add the address to the pinger. Returns the map and the submitted
addresses. -/
def registerHosts (resolve : String → Option String) (hosts : List String) :
    ResultsMap × List String :=
  hosts.foldl
    (fun acc host =>
      let rm := upsert acc.1 (keyOf resolve host) ⟨host, false, 0⟩
      match resolve host with
      | some a => (rm, acc.2 ++ [a])
      | none => (rm, acc.2))
    ([], [])

/-- All `OnRecv` invocations of one batch, in delivery order. -/
def applyReplies (rm : ResultsMap) (replies : List (String × Duration)) :
    ResultsMap :=
  replies.foldl (fun rm r => markSuccess rm r.1 r.2) rm

/-- The deferred loop of `ping`: one `pingMetrics.update` per map entry. -/
def emitResults (m : Metrics) (rm : ResultsMap) : Metrics :=
  rm.foldl (fun m e => m.update e.2.host e.2.ok e.2.rtt) m

/-- One batch's external behaviour: the resolver, the replies the
transport delivers to `OnRecv` before the deadline, and whether
`p.Run()` returns an error. -/
structure BatchInput where
  resolve : String → Option String
  replies : List (String × Duration)
  runError : Bool

/-- `ping(hosts)`: register all hosts, let the transport mark the replied
addresses, then (deferred, on every return path) push each entry to the
metrics sink. The second component is whether `Run` errored — the value
`pingLoop` ignores. -/
def ping (m : Metrics) (hosts : List String) (inp : BatchInput) :
    Metrics × Bool :=
  let rm1 := applyReplies (registerHosts inp.resolve hosts).1 inp.replies
  (emitResults m rm1, inp.runError)

/-! ### Registration -/

theorem upsert_absent (rm : ResultsMap) (k : String) (v : PendingResult)
    (h : k ∉ rm.map Prod.fst) : upsert rm k v = rm ++ [(k, v)] := by
  have hfalse : rm.any (fun e => e.1 = k) = false := by
    rw [List.any_eq_false]
    intro e he hek
    exact h (List.mem_map.mpr ⟨e, he, by simpa using hek⟩)
  simp [upsert, hfalse]

theorem registerHosts_fst (resolve : String → Option String) (hosts : List String) :
    ∀ rm : ResultsMap, ∀ subs : List String,
      (hosts.foldl
        (fun acc host =>
          let rm := upsert acc.1 (keyOf resolve host) ⟨host, false, 0⟩
          match resolve host with
          | some a => (rm, acc.2 ++ [a])
          | none => (rm, acc.2))
        (rm, subs)).1 =
      hosts.foldl (fun rm host => upsert rm (keyOf resolve host) ⟨host, false, 0⟩) rm := by
  induction hosts with
  | nil => intro rm subs; rfl
  | cons h hs ih =>
    intro rm subs
    simp only [List.foldl_cons]
    cases hres : resolve h <;> simp only [hres] <;> exact ih _ _

theorem registerHosts_snd (resolve : String → Option String) (hosts : List String) :
    ∀ rm : ResultsMap, ∀ subs : List String,
      (hosts.foldl
        (fun acc host =>
          let rm := upsert acc.1 (keyOf resolve host) ⟨host, false, 0⟩
          match resolve host with
          | some a => (rm, acc.2 ++ [a])
          | none => (rm, acc.2))
        (rm, subs)).2 = subs ++ hosts.filterMap resolve := by
  induction hosts with
  | nil => intro rm subs; simp
  | cons h hs ih =>
    intro rm subs
    simp only [List.foldl_cons, List.filterMap_cons]
    cases hres : resolve h <;> (simp only [hres]; rw [ih]; try simp)

/-- The registration loop adds only resolved addresses to the pinger:
the submitted list is exactly `hosts.filterMap resolve`. -/
theorem registerHosts_submitted (resolve : String → Option String)
    (hosts : List String) :
    (registerHosts resolve hosts).2 = hosts.filterMap resolve := by
  rw [registerHosts, registerHosts_snd]
  simp

/-- With pairwise distinct keys (no duplicate hosts, no two hosts sharing
a resolved address, at most one resolution failure), registration builds
one fresh entry per host, in order. -/
theorem regFold_nodup (resolve : String → Option String) (hosts : List String) :
    ∀ rm : ResultsMap,
      (rm.map Prod.fst ++ hosts.map (keyOf resolve)).Nodup →
      hosts.foldl (fun rm host => upsert rm (keyOf resolve host) ⟨host, false, 0⟩) rm =
        rm ++ hosts.map (fun host => (keyOf resolve host, ⟨host, false, 0⟩)) := by
  induction hosts with
  | nil => intro rm _; simp
  | cons h hs ih =>
    intro rm hnd
    have hmem : keyOf resolve h ∉ rm.map Prod.fst := by
      rw [List.nodup_append] at hnd
      exact fun hc => (hnd.2.2 hc) (by simp)
    simp only [List.foldl_cons, upsert_absent rm _ _ hmem]
    rw [ih (rm ++ [(keyOf resolve h, ({ host := h, ok := false, rtt := 0 } : PendingResult))])
      (by simpa using hnd)]
    simp

theorem registerHosts_fst_nodup (resolve : String → Option String)
    (hosts : List String) (hnd : (hosts.map (keyOf resolve)).Nodup) :
    (registerHosts resolve hosts).1 =
      hosts.map (fun host => (keyOf resolve host, ⟨host, false, 0⟩)) := by
  rw [registerHosts, registerHosts_fst, regFold_nodup resolve hosts [] (by simpa using hnd)]
  simp

/-! ### Reply handling -/

/-- The effect of one reply on one entry. -/
def replyStep (r : String × Duration) (e : String × PendingResult) :
    String × PendingResult :=
  if e.1 = r.1 then (e.1, { e.2 with ok := true, rtt := r.2 }) else e

/-- The cumulative effect of all of a batch's replies on one entry. -/
def replyEntry (replies : List (String × Duration)) (e : String × PendingResult) :
    String × PendingResult :=
  replies.foldl (fun e r => replyStep r e) e

theorem markSuccess_eq_map (rm : ResultsMap) (r : String × Duration) :
    markSuccess rm r.1 r.2 = rm.map (replyStep r) := rfl

theorem replyEntry_cons (r : String × Duration) (rest : List (String × Duration))
    (e : String × PendingResult) :
    replyEntry (r :: rest) e = replyEntry rest (replyStep r e) := rfl

theorem applyReplies_eq_map (replies : List (String × Duration)) :
    ∀ rm : ResultsMap, applyReplies rm replies = rm.map (replyEntry replies) := by
  induction replies with
  | nil =>
    intro rm
    show applyReplies rm [] = rm.map (fun e => e)
    rw [List.map_id']
    rfl
  | cons r rest ih =>
    intro rm
    have h1 : applyReplies rm (r :: rest) = applyReplies (markSuccess rm r.1 r.2) rest := rfl
    rw [h1, ih, markSuccess_eq_map, List.map_map]
    rfl

theorem replyStep_fst (r : String × Duration) (e : String × PendingResult) :
    (replyStep r e).1 = e.1 := by
  unfold replyStep; split <;> rfl

theorem replyStep_host (r : String × Duration) (e : String × PendingResult) :
    (replyStep r e).2.host = e.2.host := by
  unfold replyStep; split <;> rfl

theorem replyEntry_fst (replies : List (String × Duration)) :
    ∀ e : String × PendingResult, (replyEntry replies e).1 = e.1 := by
  induction replies with
  | nil => intro e; rfl
  | cons r rest ih =>
    intro e
    rw [replyEntry_cons, ih, replyStep_fst]

theorem replyEntry_host (replies : List (String × Duration)) :
    ∀ e : String × PendingResult, (replyEntry replies e).2.host = e.2.host := by
  induction replies with
  | nil => intro e; rfl
  | cons r rest ih =>
    intro e
    rw [replyEntry_cons, ih, replyStep_host]

theorem replyEntry_not_replied (replies : List (String × Duration)) :
    ∀ e : String × PendingResult, replied replies e.1 = false →
      replyEntry replies e = e := by
  induction replies with
  | nil => intro e _; rfl
  | cons r rest ih =>
    intro e h
    rw [replied, List.any_cons, Bool.or_eq_false_iff] at h
    have hne : e.1 ≠ r.1 := by
      intro hc
      simp [hc] at h
    rw [replyEntry_cons, replyStep, if_neg hne]
    exact ih e h.2

theorem replyStep_ok_of_ok (r : String × Duration) (e : String × PendingResult)
    (h : e.2.ok = true) : (replyStep r e).2.ok = true := by
  unfold replyStep; split <;> simp [h]

theorem replyEntry_ok_of_ok (replies : List (String × Duration)) :
    ∀ e : String × PendingResult, e.2.ok = true →
      (replyEntry replies e).2.ok = true := by
  induction replies with
  | nil => intro e h; exact h
  | cons r rest ih =>
    intro e h
    rw [replyEntry_cons]
    exact ih _ (replyStep_ok_of_ok r e h)

theorem replyEntry_ok_of_replied (replies : List (String × Duration)) :
    ∀ e : String × PendingResult, replied replies e.1 = true →
      (replyEntry replies e).2.ok = true := by
  induction replies with
  | nil => intro e h; simp [replied] at h
  | cons r rest ih =>
    intro e h
    rw [replied, List.any_cons, Bool.or_eq_true] at h
    rw [replyEntry_cons]
    by_cases hc : e.1 = r.1
    · apply replyEntry_ok_of_ok
      rw [replyStep, if_pos hc]
    · apply ih
      rcases h with h | h
      · exact absurd (of_decide_eq_true h).symm hc
      · rwa [replied, replyStep_fst]

/-! ### The deferred metric emission -/

theorem emitResults_frame (rm : ResultsMap) :
    ∀ (m : Metrics) (label : String),
      label ∉ rm.map (fun e => e.2.host) →
      (emitResults m rm).total label = m.total label ∧
      (emitResults m rm).ok label = m.ok label ∧
      (emitResults m rm).ng label = m.ng label ∧
      (emitResults m rm).rtt label = m.rtt label := by
  induction rm with
  | nil => intro m label _; exact ⟨rfl, rfl, rfl, rfl⟩
  | cons x rest ih =>
    intro m label hlab
    rw [List.map_cons, List.mem_cons, not_or] at hlab
    have hx := update_other m x.2.host x.2.ok x.2.rtt label hlab.1
    have hrest := ih (m.update x.2.host x.2.ok x.2.rtt) label hlab.2
    exact ⟨hrest.1.trans hx.1, hrest.2.1.trans hx.2.1,
      hrest.2.2.1.trans hx.2.2.1, hrest.2.2.2.trans hx.2.2.2⟩

theorem emitResults_mem (rm : ResultsMap) :
    ∀ (m : Metrics) (e : String × PendingResult),
      (rm.map (fun x => x.2.host)).Nodup → e ∈ rm →
      (emitResults m rm).total e.2.host = m.total e.2.host + 1 ∧
      (emitResults m rm).ok e.2.host = m.ok e.2.host + (if e.2.ok then 1 else 0) ∧
      (emitResults m rm).ng e.2.host = m.ng e.2.host + (if e.2.ok then 0 else 1) ∧
      (emitResults m rm).rtt e.2.host = (if e.2.ok then durToMs e.2.rtt else 0) := by
  induction rm with
  | nil => intro m e _ hmem; exact absurd hmem (List.not_mem_nil e)
  | cons x rest ih =>
    intro m e hnd hmem
    rw [List.map_cons, List.nodup_cons] at hnd
    rcases List.mem_cons.mp hmem with heq | hmem2
    · subst heq
      have hframe := emitResults_frame rest (m.update e.2.host e.2.ok e.2.rtt)
        e.2.host hnd.1
      have hself := update_self m e.2.host e.2.ok e.2.rtt
      exact ⟨hframe.1.trans hself.1, hframe.2.1.trans hself.2.1,
        hframe.2.2.1.trans hself.2.2.1, hframe.2.2.2.trans hself.2.2.2⟩
    · have hne : e.2.host ≠ x.2.host := by
        intro hc
        exact hnd.1 (hc ▸ List.mem_map.mpr ⟨e, hmem2, rfl⟩)
      have hother := update_other m x.2.host x.2.ok x.2.rtt e.2.host hne
      have hrest := ih (m.update x.2.host x.2.ok x.2.rtt) e hnd.2 hmem2
      exact ⟨hother.1 ▸ hrest.1, hother.2.1 ▸ hrest.2.1,
        hother.2.2.1 ▸ hrest.2.2.1, hrest.2.2.2⟩

/-! ### Per-host effect of one batch -/

/-- The entry registered for a host before any reply arrives. -/
theorem ping_unfold (m : Metrics) (hosts : List String) (inp : BatchInput) :
    ping m hosts inp =
      (emitResults m (applyReplies (registerHosts inp.resolve hosts).1 inp.replies),
       inp.runError) := rfl

/-- The workhorse: with pairwise distinct correlator keys, one batch
updates the metrics of every input host exactly once — `total` always
increments; a host whose key received a reply gains a success, every
other host gains a failure with the gauge reset to zero. -/
theorem ping_per_host (m : Metrics) (hosts : List String)
    (resolve : String → Option String) (replies : List (String × Duration))
    (rerr : Bool) (hkeys : (hosts.map (keyOf resolve)).Nodup)
    (host : String) (hmem : host ∈ hosts) :
    (ping m hosts ⟨resolve, replies, rerr⟩).1.total host = m.total host + 1 ∧
    (replied replies (keyOf resolve host) = true →
      (ping m hosts ⟨resolve, replies, rerr⟩).1.ok host = m.ok host + 1 ∧
      (ping m hosts ⟨resolve, replies, rerr⟩).1.ng host = m.ng host) ∧
    (replied replies (keyOf resolve host) = false →
      (ping m hosts ⟨resolve, replies, rerr⟩).1.ng host = m.ng host + 1 ∧
      (ping m hosts ⟨resolve, replies, rerr⟩).1.ok host = m.ok host ∧
      (ping m hosts ⟨resolve, replies, rerr⟩).1.rtt host = 0) := by
  have hreg := registerHosts_fst_nodup resolve hosts hkeys
  have hrm1 : applyReplies (registerHosts resolve hosts).1 replies =
      hosts.map (fun h =>
        replyEntry replies (keyOf resolve h, ⟨h, false, 0⟩)) := by
    rw [hreg, applyReplies_eq_map, List.map_map]
    rfl
  have hlabels : ((hosts.map (fun h =>
      replyEntry replies (keyOf resolve h, ⟨h, false, 0⟩))).map
        (fun x => x.2.host)).Nodup := by
    rw [List.map_map]
    have : ((fun x : String × PendingResult => x.2.host) ∘
        fun h => replyEntry replies (keyOf resolve h, ⟨h, false, 0⟩)) =
          fun h : String => h := by
      funext h
      exact replyEntry_host replies (keyOf resolve h, ⟨h, false, 0⟩)
    rw [this]
    simpa using hkeys.of_map
  have hentry : replyEntry replies (keyOf resolve host, ⟨host, false, 0⟩) ∈
      hosts.map (fun h => replyEntry replies (keyOf resolve h, ⟨h, false, 0⟩)) :=
    List.mem_map.mpr ⟨host, hmem, rfl⟩
  have hhost : (replyEntry replies (keyOf resolve host, ⟨host, false, 0⟩)).2.host
      = host :=
    replyEntry_host replies _
  have hmain := emitResults_mem _ m
    (replyEntry replies (keyOf resolve host, ⟨host, false, 0⟩)) hlabels hentry
  rw [hhost] at hmain
  have hping : (ping m hosts ⟨resolve, replies, rerr⟩).1 =
      emitResults m (hosts.map (fun h =>
        replyEntry replies (keyOf resolve h, ⟨h, false, 0⟩))) := by
    rw [ping_unfold]
    dsimp only
    rw [hrm1]
  rw [hping]
  refine ⟨hmain.1, ?_, ?_⟩
  · intro hrep
    have hok : (replyEntry replies (keyOf resolve host, ⟨host, false, 0⟩)).2.ok
        = true :=
      replyEntry_ok_of_replied replies _ hrep
    rw [hok] at hmain
    simpa using ⟨hmain.2.1, hmain.2.2.1⟩
  · intro hrep
    have hid : replyEntry replies
        ((keyOf resolve host : String), (⟨host, false, 0⟩ : PendingResult)) =
          (keyOf resolve host, ⟨host, false, 0⟩) :=
      replyEntry_not_replied replies _ hrep
    rw [hid] at hmain
    simpa using ⟨hmain.2.2.1, hmain.2.1, hmain.2.2.2⟩

theorem markSuccess_absent (rm : ResultsMap) (addr : String) (rtt : Duration) :
    addr ∉ rm.map Prod.fst → markSuccess rm addr rtt = rm := by
  induction rm with
  | nil => intro _; rfl
  | cons e rest ih =>
    intro h
    rw [List.map_cons, List.mem_cons, not_or] at h
    show (if e.1 = addr then (e.1, { e.2 with ok := true, rtt := rtt }) else e) ::
        markSuccess rest addr rtt = e :: rest
    rw [if_neg (fun hc => h.1 hc.symm), ih h.2]

/-! ### The claims about `ping` -/

/-- C1 counterexample: the batch `["9.9.9.9", "9.9.9.9"]` (a host listed
twice; as an IP literal it resolves deterministically to itself) has
N = 2 input entries, but both registrations hit the same key of
`results`, so the metrics sink is told about it once: `total` increments
by 1, not once per input entry. -/
theorem dup_hosts_reported_once_cex :
    ((ping newMetrics ["9.9.9.9", "9.9.9.9"]
        ⟨fun h => if h = "9.9.9.9" then some "9.9.9.9" else none, [], false⟩).1.total
      "9.9.9.9" = 1) ∧
    ¬ ((ping newMetrics ["9.9.9.9", "9.9.9.9"]
        ⟨fun h => if h = "9.9.9.9" then some "9.9.9.9" else none, [], false⟩).1.total
      "9.9.9.9" = 2) := by
  decide

/-- C1 (amended): one batch produces exactly one metrics report per
*distinct key* of the result map, not one per input entry. Provided the
hosts' keys (resolved address, `"<nil>"` on resolution failure) are
pairwise distinct, every input host's total-attempts counter increments
exactly once, its success counter increments exactly when its key
received a reply, and its failure counter increments otherwise; duplicate
occurrences of a host (or two hosts sharing a key) are merged and
reported only once. -/
theorem batch_reports_once_per_distinct_key (m : Metrics) (hosts : List String)
    (resolve : String → Option String) (replies : List (String × Duration))
    (rerr : Bool) (hkeys : (hosts.map (keyOf resolve)).Nodup)
    (host : String) (hmem : host ∈ hosts) :
    (ping m hosts ⟨resolve, replies, rerr⟩).1.total host = m.total host + 1 ∧
    (replied replies (keyOf resolve host) = true →
      (ping m hosts ⟨resolve, replies, rerr⟩).1.ok host = m.ok host + 1 ∧
      (ping m hosts ⟨resolve, replies, rerr⟩).1.ng host = m.ng host) ∧
    (replied replies (keyOf resolve host) = false →
      (ping m hosts ⟨resolve, replies, rerr⟩).1.ng host = m.ng host + 1 ∧
      (ping m hosts ⟨resolve, replies, rerr⟩).1.ok host = m.ok host) := by
  have h := ping_per_host m hosts resolve replies rerr hkeys host hmem
  exact ⟨h.1, h.2.1, fun hrep => ⟨(h.2.2 hrep).1, (h.2.2 hrep).2.1⟩⟩

/-- A concrete resolver: `"a"` resolves to `1.1.1.1`, everything else fails. -/
def resAB : String → Option String :=
  fun h => if h = "a" then some "1.1.1.1" else none

theorem batch_reports_once_per_distinct_key_witness :
    ((ping newMetrics ["a", "b"] ⟨resAB, [("1.1.1.1", 2000000)], false⟩).1.total "a"
        = newMetrics.total "a" + 1) ∧
    ((ping newMetrics ["a", "b"] ⟨resAB, [("1.1.1.1", 2000000)], false⟩).1.ok "a"
        = newMetrics.ok "a" + 1) ∧
    ((ping newMetrics ["a", "b"] ⟨resAB, [("1.1.1.1", 2000000)], false⟩).1.total "b"
        = newMetrics.total "b" + 1) ∧
    ((ping newMetrics ["a", "b"] ⟨resAB, [("1.1.1.1", 2000000)], false⟩).1.ng "b"
        = newMetrics.ng "b" + 1) := by
  have ha := batch_reports_once_per_distinct_key newMetrics ["a", "b"] resAB
    [("1.1.1.1", 2000000)] false (by decide) "a" (by decide)
  have hb := batch_reports_once_per_distinct_key newMetrics ["a", "b"] resAB
    [("1.1.1.1", 2000000)] false (by decide) "b" (by decide)
  exact ⟨ha.1, (ha.2.1 (by decide)).1, hb.1, (hb.2.2 (by decide)).1⟩

/-- A concrete resolver for the run-error scenario. -/
def res10 : String → Option String :=
  fun h => if h = "10.0.0.1" then some "10.0.0.1" else none

/-- C3 counterexample: a batch of one resolvable host in which `p.Run()`
returns an error (second component `true`) still updates the metrics —
the deferred loop fires on the error path too, so `total` and the failure
counter both read 1, not 0 as the claim requires. -/
theorem run_error_metrics_emitted_cex :
    (ping newMetrics ["10.0.0.1"] ⟨res10, [], true⟩).2 = true ∧
    (ping newMetrics ["10.0.0.1"] ⟨res10, [], true⟩).1.total "10.0.0.1" = 1 ∧
    (ping newMetrics ["10.0.0.1"] ⟨res10, [], true⟩).1.ng "10.0.0.1" = 1 := by
  decide

/-- C3 (amended): when the transport's blocking run call returns an
error, the batch's metric updates are *not* skipped: the deferred loop
runs on every return path, so the metrics are exactly what they would
have been had `Run` succeeded with the same deliveries — in particular,
with pairwise distinct keys, every input host's total counter increments.
(`pingLoop` moreover discards the returned error.) -/
theorem run_error_metrics_still_emitted (m : Metrics) (hosts : List String)
    (resolve : String → Option String) (replies : List (String × Duration))
    (hkeys : (hosts.map (keyOf resolve)).Nodup) (host : String)
    (hmem : host ∈ hosts) :
    (ping m hosts ⟨resolve, replies, true⟩).2 = true ∧
    (ping m hosts ⟨resolve, replies, true⟩).1 =
      (ping m hosts ⟨resolve, replies, false⟩).1 ∧
    (ping m hosts ⟨resolve, replies, true⟩).1.total host = m.total host + 1 :=
  ⟨rfl, rfl, (ping_per_host m hosts resolve replies true hkeys host hmem).1⟩

theorem run_error_metrics_still_emitted_witness :
    (ping newMetrics ["10.0.0.1"] ⟨res10, [], true⟩).2 = true ∧
    (ping newMetrics ["10.0.0.1"] ⟨res10, [], true⟩).1 =
      (ping newMetrics ["10.0.0.1"] ⟨res10, [], false⟩).1 ∧
    (ping newMetrics ["10.0.0.1"] ⟨res10, [], true⟩).1.total "10.0.0.1" =
      newMetrics.total "10.0.0.1" + 1 :=
  run_error_metrics_still_emitted newMetrics ["10.0.0.1"] res10 []
    (by decide) "10.0.0.1" (by decide)

/-- C6 counterexample: with two unresolvable hosts, both are registered
under the shared key `"<nil>"` (a nil `*net.IPAddr` stringifies to that),
the second registration overwriting the first: after the batch, `bad2`
is counted as one failed attempt but `bad1` receives no metric at all,
contrary to the claim that every unresolvable host is counted. -/
theorem two_unresolved_hosts_collide_cex :
    (ping newMetrics ["bad1", "bad2"] ⟨fun _ => none, [], false⟩).1.total "bad1" = 0 ∧
    (ping newMetrics ["bad1", "bad2"] ⟨fun _ => none, [], false⟩).1.ng "bad1" = 0 ∧
    (ping newMetrics ["bad1", "bad2"] ⟨fun _ => none, [], false⟩).1.total "bad2" = 1 ∧
    (ping newMetrics ["bad1", "bad2"] ⟨fun _ => none, [], false⟩).1.ng "bad2" = 1 := by
  decide

/-- C6 (amended): a host whose resolution fails is still registered — but
under the shared placeholder key `"<nil>"`, so unresolvable hosts collide
and only the last one in the batch is counted. Provided the batch's keys
are pairwise distinct (hence at most one resolution failure) and no reply
carries the placeholder address, the unresolvable host is counted as one
failed attempt with zero RTT; and no unresolvable host is ever submitted
to the transport (the submitted addresses are exactly the successfully
resolved ones). -/
theorem unresolved_host_reported_not_submitted (m : Metrics) (hosts : List String)
    (resolve : String → Option String) (replies : List (String × Duration))
    (rerr : Bool) (u : String)
    (hkeys : (hosts.map (keyOf resolve)).Nodup)
    (hmem : u ∈ hosts) (hu : resolve u = none)
    (hnr : replied replies nilAddr = false) :
    (registerHosts resolve hosts).2 = hosts.filterMap resolve ∧
    (ping m hosts ⟨resolve, replies, rerr⟩).1.total u = m.total u + 1 ∧
    (ping m hosts ⟨resolve, replies, rerr⟩).1.ng u = m.ng u + 1 ∧
    (ping m hosts ⟨resolve, replies, rerr⟩).1.rtt u = 0 := by
  have hk : keyOf resolve u = nilAddr := by rw [keyOf, hu]; rfl
  have h := ping_per_host m hosts resolve replies rerr hkeys u hmem
  rw [hk] at h
  have h3 := h.2.2 hnr
  exact ⟨registerHosts_submitted resolve hosts, h.1, h3.1, h3.2.2⟩

theorem unresolved_host_reported_not_submitted_witness :
    (registerHosts resAB ["a", "b"]).2 = (["a", "b"].filterMap resAB) ∧
    (ping newMetrics ["a", "b"] ⟨resAB, [], false⟩).1.total "b" =
      newMetrics.total "b" + 1 ∧
    (ping newMetrics ["a", "b"] ⟨resAB, [], false⟩).1.ng "b" =
      newMetrics.ng "b" + 1 ∧
    (ping newMetrics ["a", "b"] ⟨resAB, [], false⟩).1.rtt "b" = 0 :=
  unresolved_host_reported_not_submitted newMetrics ["a", "b"] resAB [] false "b"
    (by decide) (by decide) (by decide) (by decide)

/-- C7: a reply whose address is not a key of the batch's correlator map
is a no-op — `markSuccess` is total (no panic) and returns the map
unchanged, and the whole batch, metrics included, is exactly as if the
stray reply had never been delivered. -/
theorem stray_reply_is_noop (rm : ResultsMap) (m : Metrics) (hosts : List String)
    (resolve : String → Option String) (replies : List (String × Duration))
    (rerr : Bool) (addr : String) (rtt : Duration)
    (h1 : addr ∉ rm.map Prod.fst)
    (h2 : addr ∉ (registerHosts resolve hosts).1.map Prod.fst) :
    markSuccess rm addr rtt = rm ∧
    ping m hosts ⟨resolve, (addr, rtt) :: replies, rerr⟩ =
      ping m hosts ⟨resolve, replies, rerr⟩ := by
  refine ⟨markSuccess_absent rm addr rtt h1, ?_⟩
  have hstep : applyReplies (registerHosts resolve hosts).1 ((addr, rtt) :: replies)
      = applyReplies (registerHosts resolve hosts).1 replies := by
    show applyReplies (markSuccess (registerHosts resolve hosts).1 addr rtt) replies
        = applyReplies (registerHosts resolve hosts).1 replies
    rw [markSuccess_absent _ addr rtt h2]
  rw [ping_unfold, ping_unfold, hstep]

theorem stray_reply_is_noop_witness :
    markSuccess [("1.1.1.1", ⟨"a", false, 0⟩)] "5.5.5.5" 7 =
      [("1.1.1.1", ⟨"a", false, 0⟩)] ∧
    ping newMetrics ["a"] ⟨resAB, [("5.5.5.5", 7)], false⟩ =
      ping newMetrics ["a"] ⟨resAB, [], false⟩ :=
  stray_reply_is_noop [("1.1.1.1", ⟨"a", false, 0⟩)] newMetrics ["a"] resAB []
    false "5.5.5.5" 7 (by decide) (by decide)

end Pingmeter
